import Mathlib

/-!
Shallow embedding of the nulid core: the 128-bit identifier value
(src/nulid.rs), the Crockford Base32 codec (src/base32.rs), and the
monotonic generator protocol (src/generator.rs).

Machine integers (u128, u64, u16, bytes) are represented as `Nat` with
explicit reduction mod `2 ^ w` where the Rust semantics wraps (the left
shift inside the decoder accumulates into a `u128` and silently drops
the high bits).  Rust byte strings are `List Nat` of byte values, and
fallible operations return `Except Error _`.
-/

namespace NulidModel

/-- One past the largest `u128` value: machine words are `Nat` mod `U128`. -/
def U128 : Nat := 2 ^ 128

/-- Error type as used by the core modules (base32.rs, nulid.rs, generator.rs):
`InvalidLength { expected, found }`, `InvalidChar(char, position)` (the char is
kept as its byte value), `SystemTimeError`, `Overflow`, `MutexPoisoned`,
`EncodingError`. -/
inductive Error where
  | invalidLength (expected found : Nat)
  | invalidChar (c pos : Nat)
  | systemTimeError
  | overflow
  | mutexPoisoned
  | encodingError
  deriving DecidableEq, Repr

/-! ### Identifier value (src/nulid.rs) -/

/-- Nulid::TIMESTAMP_MASK, `(1u128 << 68) - 1` (nulid.rs line 62). -/
def TIMESTAMP_MASK : Nat := 2 ^ 68 - 1

/-- Nulid::RANDOM_MASK, `(1u128 << 60) - 1` (nulid.rs line 59). -/
def RANDOM_MASK : Nat := 2 ^ 60 - 1

/-- Nulid::from_nanos (nulid.rs lines 224-229): mask the timestamp to 68 bits,
the random word to 60 bits, and assemble `(ts << 60) | rand`. -/
def from_nanos (timestamp_nanos : Nat) (random : Nat) : Nat :=
  ((timestamp_nanos &&& TIMESTAMP_MASK) <<< 60) ||| (random &&& RANDOM_MASK)

/-- Nulid::nanos (nulid.rs lines 273-275): `self.0 >> TIMESTAMP_SHIFT`. -/
def nanos (id : Nat) : Nat := id >>> 60

/-- Nulid::random (nulid.rs lines 318-320): `self.0 & RANDOM_MASK`. -/
def random (id : Nat) : Nat := id &&& RANDOM_MASK

/-- Nulid::increment (nulid.rs lines 491-496): `self.0.checked_add(1)`, which
is `None` exactly when the value is `u128::MAX = U128 - 1`. -/
def increment (id : Nat) : Option Nat :=
  if id = U128 - 1 then none else some (id + 1)

/-- Nulid::to_bytes (nulid.rs lines 424-426): `self.0.to_be_bytes()`, i.e.
byte `i` is `(v >> (8 * (15 - i))) & 0xFF`, most significant first. -/
def to_bytes (id : Nat) : List Nat :=
  (List.range 16).map (fun i => (id >>> (8 * (15 - i))) &&& 255)

/-- Nulid::from_bytes (nulid.rs lines 258-260): `u128::from_be_bytes(bytes)`,
the big-endian base-256 accumulation of the 16 bytes. -/
def from_bytes (bytes : List Nat) : Nat :=
  bytes.foldl (fun acc b => acc * 256 + b) 0

/-! ### Base32 codec (src/base32.rs) -/

/-- Crockford alphabet `0123456789ABCDEFGHJKMNPQRSTVWXYZ` as byte values
(base32.rs line 24). -/
def ALPHABET : List Nat :=
  [48, 49, 50, 51, 52, 53, 54, 55, 56, 57,
   65, 66, 67, 68, 69, 70, 71, 72, 74, 75, 77, 78,
   80, 81, 82, 83, 84, 86, 87, 88, 89, 90]

/-- Length of a NULID string representation (base32.rs line 27). -/
def NULID_STRING_LENGTH : Nat := 26

/-- The entries written into DECODE_TABLE (base32.rs lines 31-88), in source
order: digits map to 0-9, each Crockford letter maps upper- and lowercase to
its value; every byte not listed stays 0xFF. -/
def DECODE_PAIRS : List (Nat × Nat) :=
  [(48, 0), (49, 1), (50, 2), (51, 3), (52, 4), (53, 5), (54, 6), (55, 7),
   (56, 8), (57, 9),
   (65, 10), (97, 10), (66, 11), (98, 11), (67, 12), (99, 12),
   (68, 13), (100, 13), (69, 14), (101, 14), (70, 15), (102, 15),
   (71, 16), (103, 16), (72, 17), (104, 17), (74, 18), (106, 18),
   (75, 19), (107, 19), (77, 20), (109, 20), (78, 21), (110, 21),
   (80, 22), (112, 22), (81, 23), (113, 23), (82, 24), (114, 24),
   (83, 25), (115, 25), (84, 26), (116, 26), (86, 27), (118, 27),
   (87, 28), (119, 28), (88, 29), (120, 29), (89, 30), (121, 30),
   (90, 31), (122, 31)]

/-- DECODE_TABLE (base32.rs lines 31-88): lookup of a byte value, 0xFF = 255
for bytes outside the (case-insensitive) Crockford alphabet. -/
def DECODE_TABLE (b : Nat) : Nat :=
  (DECODE_PAIRS.lookup b).getD 255

/-- encode_u128 (base32.rs lines 122-186).  The source unrolls 26 buffer
writes, `buf[25] = ALPHABET[(value & 0x1F)]` then shifting right by 5 each
step, so `buf[i] = ALPHABET[(value >> (5 * (25 - i))) & 0x1F]`. -/
def encode_u128 (value : Nat) : List Nat :=
  (List.range 26).map (fun i => ALPHABET.getD ((value >>> (5 * (25 - i))) &&& 31) 0)

/-- The decoding loop of decode_u128 (base32.rs lines 227-235): for each byte,
look it up, fail with InvalidChar at its index if the table holds 0xFF, else
accumulate `result = (result << 5) | value` in wrapping u128 arithmetic. -/
def decode_loop : List Nat → Nat → Nat → Except Error Nat
  | [], _, result => Except.ok result
  | b :: rest, i, result =>
    if DECODE_TABLE b = 255 then Except.error (Error.invalidChar b i)
    else decode_loop rest (i + 1) (((result <<< 5) % U128) ||| DECODE_TABLE b)

/-- decode_u128 (base32.rs lines 218-238): length check, then the
shift-and-accumulate loop over the bytes. -/
def decode_u128 (s : List Nat) : Except Error Nat :=
  if s.length = NULID_STRING_LENGTH then decode_loop s 0 0
  else Except.error (Error.invalidLength NULID_STRING_LENGTH s.length)

/-! ### Monotonic generator (src/generator.rs) -/

/-- Generator state: the `Mutex<Option<Nulid>>` cell (generator.rs line 393),
with a flag recording whether the mutex is poisoned. -/
structure GenState where
  last : Option Nat
  poisoned : Bool
  deriving DecidableEq, Repr

/-- The random-bits assembly inside Generator::generate (generator.rs lines
534-540): without a node id, mask the random word to 60 bits; with node id
`n`, take 44 random bits and place `n` in the upper 16 bits of the payload. -/
def random_bits (node_id : Option Nat) (rand : Nat) : Nat :=
  match node_id with
  | none => rand &&& (2 ^ 60 - 1)
  | some n => (n <<< 44) ||| (rand &&& (2 ^ 44 - 1))

/-- Generator::generate (generator.rs lines 528-566).  The clock is read
first (its failure propagates as SystemTimeError before the lock), the random
word is drawn and the candidate assembled, then the state lock is taken
(MutexPoisoned if poisoned), and the increment-on-skew comparison runs:
store-and-return the candidate if it exceeds the last value (or there is
none), otherwise store-and-return `increment(last)`, with Overflow leaving
the state untouched. -/
def generate (clk : Except Unit Nat) (rand : Nat) (node_id : Option Nat)
    (g : GenState) : Except Error Nat × GenState :=
  match clk with
  | Except.error _ => (Except.error Error.systemTimeError, g)
  | Except.ok timestamp =>
    let candidate := from_nanos timestamp (random_bits node_id rand)
    if g.poisoned then (Except.error Error.mutexPoisoned, g)
    else
      match g.last with
      | none => (Except.ok candidate, { g with last := some candidate })
      | some last_id =>
        if last_id < candidate then (Except.ok candidate, { g with last := some candidate })
        else
          match increment last_id with
          | none => (Except.error Error.overflow, g)
          | some incremented => (Except.ok incremented, { g with last := some incremented })

/-- Generator::reset (generator.rs lines 609-613): `if let Ok(mut state) =
self.state.lock() { *state = None; }` — on a poisoned lock the body is
skipped and the call returns normally with no error. -/
def reset (g : GenState) : GenState :=
  if g.poisoned then g else { g with last := none }

/-- Run a sequence of generate() calls from a state, collecting the
successfully emitted identifiers in order; each call passes the injected
clock reading and random word for that step. -/
def run_outputs (node_id : Option Nat) : List (Except Unit Nat × Nat) → GenState → List Nat
  | [], _ => []
  | (clk, rand) :: rest, g =>
    match generate clk rand node_id g with
    | (Except.ok id, g') => id :: run_outputs node_id rest g'
    | (Except.error _, g') => run_outputs node_id rest g'

/-- Observable event order of one Generator::generate call (generator.rs
lines 528-566): the clock read (line 529) and the RNG draw (lines 534-540)
happen before the lock acquisition (line 544); the guard is dropped at line
564.  On clock failure the call returns before touching RNG or lock; on a
poisoned mutex the lock is never successfully acquired. -/
inductive Event where
  | readClock
  | readRng
  | lockAcquire
  | lockRelease
  deriving DecidableEq, Repr

/-- Event trace of one Generator::generate call, in the statement order of
generator.rs lines 528-566. -/
def generate_events (clk : Except Unit Nat) (g : GenState) : List Event :=
  match clk with
  | Except.error _ => [Event.readClock]
  | Except.ok _ =>
    Event.readClock :: Event.readRng ::
      (if g.poisoned then [] else [Event.lockAcquire, Event.lockRelease])

/-! ### Big-endian digit expansion (proof infrastructure) -/

/-- Big-endian base-B digits of `v`, `n` digits wide: head is `v / B ^ (n-1)`,
then the digits of the remainder. -/
def digitsBE (B : Nat) : Nat → Nat → List Nat
  | 0, _ => []
  | n + 1, v => v / B ^ n :: digitsBE B n (v % B ^ n)

/-! ### Arithmetic bridges for the bit-level definitions -/

lemma U128_pos : 0 < U128 := by
  simp [U128]

lemma shiftLeft_lor_eq_add (a b k : Nat) (hb : b < 2 ^ k) :
    (a <<< k) ||| b = a * 2 ^ k + b := by
  rw [Nat.shiftLeft_eq, Nat.mul_comm a (2 ^ k), ← Nat.mul_add_lt_is_or hb a]

lemma from_nanos_eq (t r : Nat) :
    from_nanos t r = (t % 2 ^ 68) * 2 ^ 60 + r % 2 ^ 60 := by
  unfold from_nanos TIMESTAMP_MASK RANDOM_MASK
  rw [Nat.and_pow_two_sub_one_eq_mod, Nat.and_pow_two_sub_one_eq_mod]
  exact shiftLeft_lor_eq_add _ _ _ (Nat.mod_lt _ (by norm_num))

lemma from_nanos_lt (t r : Nat) : from_nanos t r < U128 := by
  rw [from_nanos_eq]
  have h1 : t % 2 ^ 68 < 2 ^ 68 := Nat.mod_lt _ (by norm_num)
  have h2 : r % 2 ^ 60 < 2 ^ 60 := Nat.mod_lt _ (by norm_num)
  have : (t % 2 ^ 68) * 2 ^ 60 + r % 2 ^ 60 < (t % 2 ^ 68) * 2 ^ 60 + 2 ^ 60 :=
    Nat.add_lt_add_left h2 _
  calc (t % 2 ^ 68) * 2 ^ 60 + r % 2 ^ 60
      < (t % 2 ^ 68) * 2 ^ 60 + 2 ^ 60 := this
    _ = (t % 2 ^ 68 + 1) * 2 ^ 60 := by ring
    _ ≤ 2 ^ 68 * 2 ^ 60 := Nat.mul_le_mul_right _ h1
    _ = U128 := by norm_num [U128]

lemma nanos_eq (id : Nat) : nanos id = id / 2 ^ 60 := by
  rw [nanos, Nat.shiftRight_eq_div_pow]

lemma random_eq (id : Nat) : random id = id % 2 ^ 60 := by
  rw [random, RANDOM_MASK, Nat.and_pow_two_sub_one_eq_mod]

/-- C5: increment(id) returns Some(id + 1) when id is not the all-ones
maximum and None when it is; it never changes the 68-bit time prefix except
when the low 60-bit payload is exactly 2^60 - 1, in which case (for id not
the maximum) the time prefix of the result is exactly one greater and the
payload of the result is zero. -/
theorem increment_correct (id : Nat) (hid : id < U128) :
    (id ≠ U128 - 1 → increment id = some (id + 1) ∧
      (random id = 2 ^ 60 - 1 →
        nanos (id + 1) = nanos id + 1 ∧ random (id + 1) = 0) ∧
      (random id ≠ 2 ^ 60 - 1 → nanos (id + 1) = nanos id)) ∧
    (id = U128 - 1 → increment id = none) := by
  have h60 : (2 : Nat) ^ 60 = 1152921504606846976 := by norm_num
  constructor
  · intro hne
    refine ⟨by simp [increment, hne], ?_, ?_⟩
    · intro hr
      rw [random_eq] at hr
      rw [nanos_eq, nanos_eq, random_eq]
      omega
    · intro hr
      rw [random_eq] at hr
      rw [nanos_eq, nanos_eq]
      omega
  · intro heq
    simp [increment, heq]

/-- Witness for C5 at a concrete input: incrementing 5 yields 6 and keeps
the time prefix. -/
theorem increment_correct_witness :
    increment 5 = some 6 ∧ nanos 6 = nanos 5 := by
  have h := increment_correct 5 (by norm_num [U128])
  have h1 := h.1 (by norm_num [U128])
  exact ⟨h1.1, h1.2.2 (by decide)⟩

/-! ### Generator step lemmas -/

/-- Well-formed generator state: the stored last value, if any, is a u128. -/
def wf (g : GenState) : Prop := ∀ L, g.last = some L → L < U128

lemma generate_ok (clk : Except Unit Nat) (rand : Nat) (node_id : Option Nat)
    (g : GenState) (id : Nat) (g' : GenState) (hwf : wf g)
    (h : generate clk rand node_id g = (Except.ok id, g')) :
    id < U128 ∧ g'.last = some id ∧ g'.poisoned = g.poisoned ∧
      ∀ L, g.last = some L → L < id := by
  obtain ⟨lastv, pv⟩ := g
  cases clk with
  | error e => simp [generate] at h
  | ok t =>
    cases pv with
    | true => simp [generate] at h
    | false =>
      cases lastv with
      | none =>
        simp only [generate, Bool.false_eq_true, if_false, Prod.mk.injEq,
          Except.ok.injEq] at h
        obtain ⟨h1, h2⟩ := h
        subst h1; subst h2
        exact ⟨from_nanos_lt _ _, rfl, rfl, by intro L hL; cases hL⟩
      | some L =>
        have hL : L < U128 := hwf L rfl
        by_cases hc : L < from_nanos t (random_bits node_id rand)
        · simp only [generate, Bool.false_eq_true, if_false, hc, if_true,
            Prod.mk.injEq, Except.ok.injEq] at h
          obtain ⟨h1, h2⟩ := h
          subst h1; subst h2
          refine ⟨from_nanos_lt _ _, rfl, rfl, ?_⟩
          intro L' hL'
          cases hL'
          exact hc
        · by_cases hmax : L = U128 - 1
          · subst hmax
            simp [generate, hc, increment] at h
          · simp only [generate, Bool.false_eq_true, if_false, hc, if_false,
              increment, hmax, Prod.mk.injEq, Except.ok.injEq] at h
            obtain ⟨h1, h2⟩ := h
            subst h1; subst h2
            refine ⟨by omega, rfl, rfl, ?_⟩
            intro L' hL'
            cases hL'
            omega

lemma generate_error (clk : Except Unit Nat) (rand : Nat) (node_id : Option Nat)
    (g : GenState) (e : Error) (g' : GenState)
    (h : generate clk rand node_id g = (Except.error e, g')) : g' = g := by
  obtain ⟨lastv, pv⟩ := g
  cases clk with
  | error e' =>
    simp only [generate, Prod.mk.injEq] at h
    exact h.2.symm
  | ok t =>
    cases pv with
    | true =>
      simp only [generate, if_true, Prod.mk.injEq] at h
      exact h.2.symm
    | false =>
      cases lastv with
      | none => simp [generate] at h
      | some L =>
        by_cases hc : L < from_nanos t (random_bits node_id rand)
        · simp [generate, hc] at h
        · by_cases hmax : L = U128 - 1
          · subst hmax
            simp only [generate, Bool.false_eq_true, if_false, hc, increment,
              if_true, Prod.mk.injEq] at h
            exact h.2.symm
          · simp [generate, hc, increment, hmax] at h

lemma run_outputs_chain (node_id : Option Nat) :
    ∀ (inputs : List (Except Unit Nat × Nat)) (g : GenState), wf g →
      List.Chain' (· < ·) (run_outputs node_id inputs g) ∧
      ∀ L, g.last = some L → ∀ x ∈ run_outputs node_id inputs g, L < x := by
  intro inputs
  induction inputs with
  | nil => intro g _; exact ⟨List.chain'_nil, by intro L _ x hx; cases hx⟩
  | cons p rest ih =>
    intro g hwf
    obtain ⟨clk, rand⟩ := p
    rcases hgen : generate clk rand node_id g with ⟨res, g'⟩
    cases res with
    | error e =>
      have hg' : g' = g := generate_error clk rand node_id g e g' hgen
      have hrun : run_outputs node_id ((clk, rand) :: rest) g =
          run_outputs node_id rest g' := by
        simp [run_outputs, hgen]
      rw [hrun, hg']
      exact ih g hwf
    | ok id =>
      obtain ⟨hid, hlast, _, hgt⟩ := generate_ok clk rand node_id g id g' hwf hgen
      have hwf' : wf g' := by
        intro L hL
        rw [hlast] at hL
        cases hL
        exact hid
      obtain ⟨hchain, hbound⟩ := ih g' hwf'
      have hrun : run_outputs node_id ((clk, rand) :: rest) g =
          id :: run_outputs node_id rest g' := by
        simp [run_outputs, hgen]
      rw [hrun]
      constructor
      · refine List.chain'_cons'.mpr ⟨?_, hchain⟩
        intro y hy
        exact hbound id hlast y (List.mem_of_mem_head? hy)
      · intro L hL x hx
        rcases List.mem_cons.mp hx with hx | hx
        · subst hx; exact hgt L hL
        · exact lt_trans (hgt L hL) (hbound id hlast x hx)

/-- C1: for every sequence of generate() calls on a single generator, with
any injected clock value sequence (stalls, regressions, oscillations) and
any injected RNG value sequence, the successfully emitted identifiers are
strictly increasing in order of emission. -/
theorem generate_strictly_monotonic (node_id : Option Nat)
    (inputs : List (Except Unit Nat × Nat)) :
    List.Chain' (· < ·) (run_outputs node_id inputs { last := none, poisoned := false }) :=
  (run_outputs_chain node_id inputs { last := none, poisoned := false }
    (by intro L hL; cases hL)).1

/-- C2: with a successful clock reading t and random word r, write c for the
assembled candidate.  If the last cell is empty, or holds L with L < c, the
call emits c and stores c; if it holds L with c ≤ L and L is not the all-ones
maximum, the call emits L + 1 and stores L + 1.  In every successful case the
stored last equals the emitted value. -/
theorem generate_increment_on_skew (t rand : Nat) (node_id : Option Nat)
    (g : GenState) (hp : g.poisoned = false) :
    (g.last = none →
      generate (Except.ok t) rand node_id g =
        (Except.ok (from_nanos t (random_bits node_id rand)),
         { last := some (from_nanos t (random_bits node_id rand)), poisoned := false })) ∧
    (∀ L, g.last = some L → L < from_nanos t (random_bits node_id rand) →
      generate (Except.ok t) rand node_id g =
        (Except.ok (from_nanos t (random_bits node_id rand)),
         { last := some (from_nanos t (random_bits node_id rand)), poisoned := false })) ∧
    (∀ L, g.last = some L → from_nanos t (random_bits node_id rand) ≤ L →
      L ≠ U128 - 1 →
      generate (Except.ok t) rand node_id g =
        (Except.ok (L + 1), { last := some (L + 1), poisoned := false })) := by
  obtain ⟨lastv, pv⟩ := g
  simp only [GenState.poisoned] at hp
  subst hp
  refine ⟨?_, ?_, ?_⟩
  · intro hnone
    simp only [GenState.last] at hnone
    subst hnone
    simp [generate]
  · intro L hsome hlt
    simp only [GenState.last] at hsome
    subst hsome
    simp [generate, hlt]
  · intro L hsome hle hne
    simp only [GenState.last] at hsome
    subst hsome
    simp [generate, Nat.not_lt.mpr hle, increment, hne]

/-- Witness for C2 at concrete inputs: last = 0, clock 1, random 2 emits and
stores the candidate. -/
theorem generate_increment_on_skew_witness :
    generate (Except.ok 1) 2 none { last := some 0, poisoned := false } =
      (Except.ok (from_nanos 1 (random_bits none 2)),
       { last := some (from_nanos 1 (random_bits none 2)), poisoned := false }) :=
  (generate_increment_on_skew 1 2 none { last := some 0, poisoned := false } rfl).2.1
    0 rfl (by decide)

/-- C7: generate() is atomic on failure.  A clock failure returns
SystemTimeError with the state unchanged; a stored last of all-ones maximum
(which no candidate can exceed) returns Overflow with the state still
holding the maximum. -/
theorem generate_failure_atomic :
    (∀ (rand : Nat) (node_id : Option Nat) (g : GenState),
      generate (Except.error ()) rand node_id g = (Except.error Error.systemTimeError, g)) ∧
    (∀ (t rand : Nat) (node_id : Option Nat) (g : GenState),
      g.poisoned = false → g.last = some (U128 - 1) →
      generate (Except.ok t) rand node_id g = (Except.error Error.overflow, g)) := by
  constructor
  · intro rand node_id g
    simp [generate]
  · intro t rand node_id g hp hl
    obtain ⟨lastv, pv⟩ := g
    simp only [GenState.poisoned] at hp
    simp only [GenState.last] at hl
    subst hp
    subst hl
    have hc : ¬ (U128 - 1 < from_nanos t (random_bits node_id rand)) := by
      have := from_nanos_lt t (random_bits node_id rand)
      omega
    simp [generate, hc, increment]

/-- Witness for C7 at concrete inputs: a failed clock and a maxed-out last. -/
theorem generate_failure_atomic_witness :
    generate (Except.error ()) 0 none { last := none, poisoned := false } =
      (Except.error Error.systemTimeError, { last := none, poisoned := false }) ∧
    generate (Except.ok 0) 0 none { last := some (U128 - 1), poisoned := false } =
      (Except.error Error.overflow, { last := some (U128 - 1), poisoned := false }) :=
  ⟨generate_failure_atomic.1 0 none _, generate_failure_atomic.2 0 0 none _ rfl rfl⟩

/-- C8 counterexample: reset() on a poisoned generator does not surface the
poisoned condition — it returns normally (its Rust signature returns unit and
the Err branch of the lock is silently skipped), leaving the state cell
untouched. -/
theorem reset_swallows_poison_counterexample :
    reset { last := some 5, poisoned := true } = { last := some 5, poisoned := true } := rfl

/-- C8 amended: when the state lock is poisoned, every generate() call with a
successful clock reading surfaces MutexPoisoned; reset() on a poisoned lock
completes silently without clearing the state, and on a healthy lock clears
the last cell. -/
theorem poisoned_behavior :
    (∀ (t rand : Nat) (node_id : Option Nat) (g : GenState), g.poisoned = true →
      generate (Except.ok t) rand node_id g = (Except.error Error.mutexPoisoned, g)) ∧
    (∀ g : GenState, g.poisoned = true → reset g = g) ∧
    (∀ g : GenState, g.poisoned = false → reset g = { g with last := none }) := by
  refine ⟨?_, ?_, ?_⟩
  · intro t rand node_id g hp
    simp [generate, hp]
  · intro g hp
    simp [reset, hp]
  · intro g hp
    simp [reset, hp]

/-- Witness for the amended C8 at concrete states. -/
theorem poisoned_behavior_witness :
    generate (Except.ok 0) 0 none { last := none, poisoned := true } =
      (Except.error Error.mutexPoisoned, { last := none, poisoned := true }) ∧
    reset { last := none, poisoned := true } = { last := none, poisoned := true } ∧
    reset { last := some 3, poisoned := false } = { last := none, poisoned := false } :=
  ⟨poisoned_behavior.1 0 0 none _ rfl, poisoned_behavior.2.1 _ rfl,
    poisoned_behavior.2.2 { last := some 3, poisoned := false } rfl⟩

/-- C9 counterexample: in a successful generate() call the observable event
order is clock read (index 0), RNG read (index 1), then lock acquisition
(index 2) — the clock and RNG are read before the lock is taken, not while
holding it. -/
theorem clock_read_before_lock_counterexample :
    generate_events (Except.ok 0) { last := none, poisoned := false } =
      [Event.readClock, Event.readRng, Event.lockAcquire, Event.lockRelease] ∧
    (generate_events (Except.ok 0) { last := none, poisoned := false }).indexOf
      Event.readClock = 0 ∧
    (generate_events (Except.ok 0) { last := none, poisoned := false }).indexOf
      Event.lockAcquire = 2 := by
  refine ⟨rfl, rfl, rfl⟩

/-- C9 amended: the clock and RNG reads occur before the critical section:
in every generate() call whose trace reaches the lock acquisition, the clock
read is at index 0 and the RNG read at index 1, both strictly before the
acquisition. -/
theorem clock_rng_before_lock (clk : Except Unit Nat) (g : GenState) (i : Nat)
    (h : (generate_events clk g)[i]? = some Event.lockAcquire) :
    (generate_events clk g)[0]? = some Event.readClock ∧
    (generate_events clk g)[1]? = some Event.readRng ∧ 1 < i := by
  cases clk with
  | error e =>
    rcases i with _ | _ | i <;> simp [generate_events] at h
  | ok t =>
    cases hp : g.poisoned with
    | true =>
      rcases i with _ | _ | _ | i <;> simp [generate_events, hp] at h
    | false =>
      rcases i with _ | _ | _ | _ | i <;> simp_all [generate_events, hp]

/-- Witness for the amended C9 at the successful concrete trace. -/
theorem clock_rng_before_lock_witness :
    (generate_events (Except.ok 0) { last := none, poisoned := false })[0]? =
        some Event.readClock ∧
    (generate_events (Except.ok 0) { last := none, poisoned := false })[1]? =
        some Event.readRng ∧ 1 < 2 :=
  clock_rng_before_lock (Except.ok 0) { last := none, poisoned := false } 2 rfl

/-! ### Properties of the big-endian digit expansion -/

lemma digitsBE_succ (B n v : Nat) :
    digitsBE B (n + 1) v = v / B ^ n :: digitsBE B n (v % B ^ n) := rfl

lemma foldl_digitsBE (B : Nat) (hB : 0 < B) :
    ∀ (n v a : Nat), v < B ^ n →
      (digitsBE B n v).foldl (fun acc d => acc * B + d) a = a * B ^ n + v := by
  intro n
  induction n with
  | zero =>
    intro v a hv
    have : v = 0 := by simpa using hv
    subst this
    simp [digitsBE]
  | succ n ih =>
    intro v a hv
    rw [digitsBE_succ, List.foldl_cons, ih _ _ (Nat.mod_lt _ (pow_pos hB n)),
      pow_succ]
    calc (a * B + v / B ^ n) * B ^ n + v % B ^ n
        = a * (B ^ n * B) + (B ^ n * (v / B ^ n) + v % B ^ n) := by ring
      _ = a * (B ^ n * B) + v := by rw [Nat.div_add_mod]

lemma digitsBE_mem_lt (B : Nat) (hB : 0 < B) :
    ∀ (n v : Nat), v < B ^ n → ∀ d ∈ digitsBE B n v, d < B := by
  intro n
  induction n with
  | zero => intro v hv d hd; simp [digitsBE] at hd
  | succ n ih =>
    intro v hv d hd
    rw [digitsBE_succ, List.mem_cons] at hd
    rcases hd with rfl | hd
    · refine (Nat.div_lt_iff_lt_mul (pow_pos hB n)).mpr ?_
      rw [pow_succ] at hv
      exact lt_of_lt_of_le hv (le_of_eq (Nat.mul_comm _ _))
    · exact ih _ (Nat.mod_lt _ (pow_pos hB n)) d hd

lemma digitsBE_lex (B : Nat) (hB : 0 < B) :
    ∀ (n a b : Nat), a < B ^ n → b < B ^ n → a < b →
      List.Lex (· < ·) (digitsBE B n a) (digitsBE B n b) := by
  intro n
  induction n with
  | zero =>
    intro a b ha hb hab
    exact absurd hab (by simp at hb; omega)
  | succ n ih =>
    intro a b ha hb hab
    rw [digitsBE_succ, digitsBE_succ]
    rcases lt_trichotomy (a / B ^ n) (b / B ^ n) with h | h | h
    · exact List.Lex.rel h
    · rw [h]
      apply List.Lex.cons
      apply ih _ _ (Nat.mod_lt _ (pow_pos hB n)) (Nat.mod_lt _ (pow_pos hB n))
      have h1 := Nat.div_add_mod a (B ^ n)
      have h2 := Nat.div_add_mod b (B ^ n)
      have h3 : B ^ n * (a / B ^ n) = B ^ n * (b / B ^ n) := by rw [h]
      linarith
    · exact absurd h (Nat.not_lt.mpr (Nat.div_le_div_right hab.le))

lemma digitsBE_eq_map (B : Nat) (hB : 0 < B) :
    ∀ (n v : Nat), v < B ^ n →
      digitsBE B n v = (List.range n).map (fun i => v / B ^ (n - 1 - i) % B) := by
  intro n
  induction n with
  | zero => intro v hv; simp [digitsBE]
  | succ n ih =>
    intro v hv
    rw [digitsBE_succ, List.range_succ_eq_map, List.map_cons, List.map_map]
    congr 1
    · have hlt : v / B ^ n < B := by
        refine (Nat.div_lt_iff_lt_mul (pow_pos hB n)).mpr ?_
        rw [pow_succ] at hv
        exact lt_of_lt_of_le hv (le_of_eq (Nat.mul_comm _ _))
      simp [Nat.mod_eq_of_lt hlt]
    · rw [ih _ (Nat.mod_lt _ (pow_pos hB n))]
      apply List.map_congr_left
      intro i hi
      have hin : i < n := List.mem_range.mp hi
      have hk : n - 1 - i < n := by omega
      have hsplit : B ^ n = B ^ (n - 1 - i) * B ^ (n - (n - 1 - i)) := by
        rw [← pow_add]
        congr 1
        omega
      simp only [Function.comp]
      have hidx : n + 1 - 1 - (i + 1) = n - 1 - i := by omega
      rw [hidx, hsplit, Nat.mod_mul_right_div_self,
        Nat.mod_mod_of_dvd _ (dvd_pow_self B (by omega : n - (n - 1 - i) ≠ 0))]

/-! ### Lexicographic order helpers -/

lemma lex_lt_asymm : ∀ {l₁ l₂ : List Nat},
    List.Lex (· < ·) l₁ l₂ → ¬ List.Lex (· < ·) l₂ l₁ := by
  intro l₁ l₂ h
  induction h with
  | nil => intro h2; cases h2
  | cons h ih =>
    intro h2
    cases h2 with
    | cons h3 => exact ih h3
    | rel h3 => exact absurd h3 (lt_irrefl _)
  | rel h =>
    intro h2
    cases h2 with
    | cons h3 => exact absurd h (lt_irrefl _)
    | rel h3 => exact absurd (lt_trans h h3) (lt_irrefl _)

lemma lex_lt_irrefl (l : List Nat) : ¬ List.Lex (· < ·) l l :=
  fun h => lex_lt_asymm h h

/-! ### Encoding as alphabet-mapped digits -/

lemma and_31_eq_mod (x : Nat) : x &&& 31 = x % 32 := by
  have h := Nat.and_pow_two_sub_one_eq_mod x 5
  norm_num at h
  exact h

lemma and_255_eq_mod (x : Nat) : x &&& 255 = x % 256 := by
  have h := Nat.and_pow_two_sub_one_eq_mod x 8
  norm_num at h
  exact h

lemma encode_u128_eq_map (v : Nat) (hv : v < U128) :
    encode_u128 v = (digitsBE 32 26 v).map (fun d => ALPHABET.getD d 0) := by
  have hv' : v < 32 ^ 26 := lt_of_lt_of_le hv (by norm_num [U128])
  rw [digitsBE_eq_map 32 (by norm_num) 26 v hv', List.map_map, encode_u128]
  apply List.map_congr_left
  intro i hi
  have hin : i < 26 := List.mem_range.mp hi
  simp only [Function.comp]
  have hpow : (2 : Nat) ^ (5 * (25 - i)) = 32 ^ (26 - 1 - i) := by
    have h32 : (32 : Nat) = 2 ^ 5 := by norm_num
    have harg : 5 * (25 - i) = 5 * (26 - 1 - i) := by omega
    rw [h32, ← pow_mul, harg]
  rw [Nat.shiftRight_eq_div_pow, and_31_eq_mod, hpow]

lemma to_bytes_eq_digits (v : Nat) (hv : v < U128) :
    to_bytes v = digitsBE 256 16 v := by
  have hv' : v < 256 ^ 16 := lt_of_lt_of_le hv (by norm_num [U128])
  rw [digitsBE_eq_map 256 (by norm_num) 16 v hv', to_bytes]
  apply List.map_congr_left
  intro i hi
  have hin : i < 16 := List.mem_range.mp hi
  have hpow : (2 : Nat) ^ (8 * (15 - i)) = 256 ^ (16 - 1 - i) := by
    have h256 : (256 : Nat) = 2 ^ 8 := by norm_num
    have harg : 8 * (15 - i) = 8 * (16 - 1 - i) := by omega
    rw [h256, ← pow_mul, harg]
  rw [Nat.shiftRight_eq_div_pow, and_255_eq_mod, hpow]

lemma alphabet_mono : ∀ d < 32, ∀ e < 32, d < e →
    ALPHABET.getD d 0 < ALPHABET.getD e 0 := by decide

lemma map_alphabet_lex {l₁ l₂ : List Nat} (h : List.Lex (· < ·) l₁ l₂)
    (h2 : ∀ d ∈ l₂, d < 32) (h1 : ∀ d ∈ l₁, d < 32) :
    List.Lex (· < ·) (l₁.map (fun d => ALPHABET.getD d 0))
      (l₂.map (fun d => ALPHABET.getD d 0)) := by
  induction h with
  | nil => exact List.Lex.nil
  | @cons a t₁ t₂ h ih =>
    rw [List.map_cons, List.map_cons]
    exact List.Lex.cons (ih (fun d hd => h2 d (List.mem_cons_of_mem _ hd))
      (fun d hd => h1 d (List.mem_cons_of_mem _ hd)))
  | @rel a₁ t₁ a₂ t₂ h =>
    rw [List.map_cons, List.map_cons]
    exact List.Lex.rel (alphabet_mono a₁ (h1 a₁ (List.mem_cons_self _ _)) a₂
      (h2 a₂ (List.mem_cons_self _ _)) h)

/-- C3: for 128-bit values a < b, the 26-character Base32 encoding of a is
strictly below that of b in byte-wise (ASCII) lexicographic order, and the
big-endian 16-byte form of a is strictly below that of b; numeric order,
byte order and (same-case) text order agree. -/
theorem order_preserving (a b : Nat) (ha : a < U128) (hb : b < U128) :
    (a < b ↔ List.Lex (· < ·) (encode_u128 a) (encode_u128 b)) ∧
    (a < b ↔ List.Lex (· < ·) (to_bytes a) (to_bytes b)) := by
  have key_enc : ∀ x y, x < U128 → y < U128 → x < y →
      List.Lex (· < ·) (encode_u128 x) (encode_u128 y) := by
    intro x y hx hy hxy
    have hx' : x < 32 ^ 26 := lt_of_lt_of_le hx (by norm_num [U128])
    have hy' : y < 32 ^ 26 := lt_of_lt_of_le hy (by norm_num [U128])
    rw [encode_u128_eq_map x hx, encode_u128_eq_map y hy]
    exact map_alphabet_lex (digitsBE_lex 32 (by norm_num) 26 x y hx' hy' hxy)
      (digitsBE_mem_lt 32 (by norm_num) 26 y hy') (digitsBE_mem_lt 32 (by norm_num) 26 x hx')
  have key_bytes : ∀ x y, x < U128 → y < U128 → x < y →
      List.Lex (· < ·) (to_bytes x) (to_bytes y) := by
    intro x y hx hy hxy
    have hx' : x < 256 ^ 16 := lt_of_lt_of_le hx (by norm_num [U128])
    have hy' : y < 256 ^ 16 := lt_of_lt_of_le hy (by norm_num [U128])
    rw [to_bytes_eq_digits x hx, to_bytes_eq_digits y hy]
    exact digitsBE_lex 256 (by norm_num) 16 x y hx' hy' hxy
  constructor
  · constructor
    · exact key_enc a b ha hb
    · intro h
      rcases lt_trichotomy a b with hab | hab | hab
      · exact hab
      · subst hab; exact absurd h (lex_lt_irrefl _)
      · exact absurd h (lex_lt_asymm (key_enc b a hb ha hab))
  · constructor
    · exact key_bytes a b ha hb
    · intro h
      rcases lt_trichotomy a b with hab | hab | hab
      · exact hab
      · subst hab; exact absurd h (lex_lt_irrefl _)
      · exact absurd h (lex_lt_asymm (key_bytes b a hb ha hab))

/-- Witness for C3 at concrete values 1000 < 2000. -/
theorem order_preserving_witness :
    List.Lex (· < ·) (encode_u128 1000) (encode_u128 2000) ∧
    List.Lex (· < ·) (to_bytes 1000) (to_bytes 2000) := by
  have h := order_preserving 1000 2000 (by norm_num [U128]) (by norm_num [U128])
  exact ⟨h.1.mp (by norm_num), h.2.mp (by norm_num)⟩

/-! ### Decoding lemmas -/

/-- Lowercasing of an ASCII byte: uppercase letters move down into a-z,
everything else is unchanged. -/
def to_lower_byte (b : Nat) : Nat :=
  if 65 ≤ b ∧ b ≤ 90 then b + 32 else b

lemma table_alphabet : ∀ d < 32, DECODE_TABLE (ALPHABET.getD d 0) = d := by decide

lemma table_alphabet_lower :
    ∀ d < 32, DECODE_TABLE (to_lower_byte (ALPHABET.getD d 0)) = d := by decide

lemma DECODE_TABLE_lt (b : Nat) (hb : DECODE_TABLE b ≠ 255) : DECODE_TABLE b < 32 := by
  rcases h : DECODE_PAIRS.lookup b with _ | v
  · exact absurd (by rw [DECODE_TABLE, h]; rfl) hb
  · rw [DECODE_TABLE, h, Option.getD_some]
    rcases List.lookup_eq_some_iff.mp h with ⟨l₁, l₂, hl, _⟩
    have hmem : (b, v) ∈ DECODE_PAIRS := by
      rw [hl]
      exact List.mem_append_right _ (List.mem_cons_self _ _)
    have hall : ∀ p ∈ DECODE_PAIRS, p.2 < 32 := by decide
    exact hall _ hmem

lemma decode_loop_ok : ∀ {ds t : List Nat},
    List.Forall₂ (fun d b => DECODE_TABLE b = d ∧ d < 32) ds t →
    ∀ (i acc : Nat),
      decode_loop t i acc =
        Except.ok (ds.foldl (fun a d => ((a <<< 5) % U128) ||| d) acc) := by
  intro ds t h
  induction h with
  | nil => intro i acc; rfl
  | @cons d b ds' t' hdb htl ih =>
    intro i acc
    obtain ⟨hd, hlt⟩ := hdb
    simp only [decode_loop, hd, List.foldl_cons]
    rw [if_neg (by omega : ¬ d = 255)]
    exact ih (i + 1) _

lemma add_mul_mod_eq (k m a d : Nat) (hm : 0 < m) (hd : d < k) :
    (k * a + d) % (k * m) = k * (a % m) + d := by
  rw [Nat.add_mod, Nat.mul_mod_mul_left]
  have h1 : k * 1 ≤ k * m := Nat.mul_le_mul (le_refl k) hm
  rw [Nat.mul_one] at h1
  have hd2 : d % (k * m) = d := Nat.mod_eq_of_lt (by linarith)
  rw [hd2]
  apply Nat.mod_eq_of_lt
  have ham : a % m < m := Nat.mod_lt _ hm
  have h2 : k * (a % m + 1) ≤ k * m := Nat.mul_le_mul (le_refl k) (Nat.succ_le_of_lt ham)
  rw [Nat.mul_add, Nat.mul_one] at h2
  linarith

lemma wrap_step (a d : Nat) (hd : d < 32) :
    ((a <<< 5) % U128) ||| d = (a * 32 + d) % U128 := by
  have e1 : a <<< 5 = 32 * a := by rw [Nat.shiftLeft_eq]; ring
  have e2 : U128 = 32 * 2 ^ 123 := by norm_num [U128]
  have e3 : a * 32 = 32 * a := Nat.mul_comm _ _
  rw [e1, e2, e3, Nat.mul_mod_mul_left,
    add_mul_mod_eq 32 (2 ^ 123) a d (by norm_num) hd]
  have h5 : (32 : Nat) = 2 ^ 5 := by norm_num
  rw [h5]
  exact (Nat.mul_add_lt_is_or (h5 ▸ hd) (a % 2 ^ 123)).symm

lemma pfold_modEq (ds : List Nat) : ∀ x y, x % U128 = y % U128 →
    (ds.foldl (fun a d => a * 32 + d) x) % U128 =
      (ds.foldl (fun a d => a * 32 + d) y) % U128 := by
  induction ds with
  | nil => intro x y h; simpa using h
  | cons d ds ih =>
    intro x y h
    simp only [List.foldl_cons]
    apply ih
    have hmul : x * 32 % U128 = y * 32 % U128 := by
      rw [Nat.mul_mod, h, ← Nat.mul_mod]
    rw [Nat.add_mod, hmul, ← Nat.add_mod]

lemma pfold_mod_congr (ds : List Nat) (x : Nat) :
    (ds.foldl (fun a d => a * 32 + d) (x % U128)) % U128 =
      (ds.foldl (fun a d => a * 32 + d) x) % U128 :=
  pfold_modEq ds (x % U128) x (Nat.mod_mod_of_dvd x (dvd_refl U128))

lemma wfold_eq_pfold : ∀ (ds : List Nat) (acc : Nat), (∀ d ∈ ds, d < 32) →
    acc < U128 →
    ds.foldl (fun a d => ((a <<< 5) % U128) ||| d) acc =
      (ds.foldl (fun a d => a * 32 + d) acc) % U128 := by
  intro ds
  induction ds with
  | nil => intro acc _ hacc; simpa using (Nat.mod_eq_of_lt hacc).symm
  | cons d ds ih =>
    intro acc hds hacc
    simp only [List.foldl_cons]
    rw [wrap_step acc d (hds d (List.mem_cons_self _ _)),
      ih _ (fun x hx => hds x (List.mem_cons_of_mem _ hx)) (Nat.mod_lt _ U128_pos),
      pfold_mod_congr]

lemma forall₂_alph (ds : List Nat) (h : ∀ d ∈ ds, d < 32) :
    List.Forall₂ (fun d b => DECODE_TABLE b = d ∧ d < 32) ds
      (ds.map (fun d => ALPHABET.getD d 0)) := by
  induction ds with
  | nil => exact List.Forall₂.nil
  | cons d ds ih =>
    have hd := h d (List.mem_cons_self _ _)
    exact List.Forall₂.cons ⟨table_alphabet d hd, hd⟩
      (ih (fun x hx => h x (List.mem_cons_of_mem _ hx)))

lemma forall₂_case (ds : List Nat) (hlt : ∀ d ∈ ds, d < 32) :
    ∀ t : List Nat,
      List.Forall₂ (fun a b => b = a ∨ b = to_lower_byte a)
        (ds.map (fun d => ALPHABET.getD d 0)) t →
      List.Forall₂ (fun d b => DECODE_TABLE b = d ∧ d < 32) ds t := by
  induction ds with
  | nil =>
    intro t h
    cases h
    exact List.Forall₂.nil
  | cons d ds ih =>
    intro t h
    cases h with
    | cons hab htl =>
      have hd := hlt d (List.mem_cons_self _ _)
      refine List.Forall₂.cons ?_
        (ih (fun x hx => hlt x (List.mem_cons_of_mem _ hx)) _ htl)
      rcases hab with rfl | rfl
      · exact ⟨table_alphabet d hd, hd⟩
      · exact ⟨table_alphabet_lower d hd, hd⟩

lemma decode_of_forall₂ (v : Nat) (hv : v < U128) (t : List Nat)
    (hf : List.Forall₂ (fun d b => DECODE_TABLE b = d ∧ d < 32)
      (digitsBE 32 26 v) t)
    (hlen : t.length = 26) :
    decode_u128 t = Except.ok v := by
  have hv32 : v < 32 ^ 26 := lt_of_lt_of_le hv (by norm_num [U128])
  have hmem := digitsBE_mem_lt 32 (by norm_num) 26 v hv32
  have h1 : decode_u128 t = decode_loop t 0 0 := by
    rw [decode_u128, if_pos (by simp [hlen, NULID_STRING_LENGTH])]
  rw [h1, decode_loop_ok hf 0 0, wfold_eq_pfold _ _ hmem U128_pos,
    foldl_digitsBE 32 (by norm_num) 26 v 0 hv32]
  have h2 : 0 * 32 ^ 26 + v = v := by ring
  rw [h2, Nat.mod_eq_of_lt hv]

/-- C4: binary and textual round trips.  For every 128-bit value v,
from_bytes(to_bytes(v)) = v, decoding the 26-character encoding of v (which
is what Display produces and FromStr parses) returns v, and decoding any
per-character case variant of that encoding also returns v. -/
theorem round_trip (v : Nat) (hv : v < U128) :
    from_bytes (to_bytes v) = v ∧
    decode_u128 (encode_u128 v) = Except.ok v ∧
    ∀ t : List Nat,
      List.Forall₂ (fun a b => b = a ∨ b = to_lower_byte a) (encode_u128 v) t →
      decode_u128 t = Except.ok v := by
  have hv32 : v < 32 ^ 26 := lt_of_lt_of_le hv (by norm_num [U128])
  have hmem := digitsBE_mem_lt 32 (by norm_num) 26 v hv32
  have hlen : (encode_u128 v).length = 26 := by simp [encode_u128]
  refine ⟨?_, ?_, ?_⟩
  · rw [to_bytes_eq_digits v hv, from_bytes]
    have h := foldl_digitsBE 256 (by norm_num) 16 v 0
      (lt_of_lt_of_le hv (by norm_num [U128]))
    simpa using h
  · refine decode_of_forall₂ v hv _ ?_ hlen
    rw [encode_u128_eq_map v hv]
    exact forall₂_alph _ hmem
  · intro t ht
    have hlent : t.length = 26 := by
      rw [← List.Forall₂.length_eq ht, hlen]
    refine decode_of_forall₂ v hv t ?_ hlent
    refine forall₂_case _ hmem t ?_
    rw [← encode_u128_eq_map v hv]
    exact ht

/-- Witness for C4 at the concrete value 1. -/
theorem round_trip_witness :
    from_bytes (to_bytes 1) = 1 ∧ decode_u128 (encode_u128 1) = Except.ok 1 :=
  ⟨(round_trip 1 (by norm_num [U128])).1, (round_trip 1 (by norm_num [U128])).2.1⟩

/-! ### Decoder error reporting -/

lemma decode_loop_first_invalid : ∀ (s : List Nat) (i acc : Nat),
    (∃ b ∈ s, DECODE_TABLE b = 255) →
    ∃ j, j < s.length ∧ DECODE_TABLE (s.getD j 0) = 255 ∧
      (∀ k < j, DECODE_TABLE (s.getD k 0) ≠ 255) ∧
      decode_loop s i acc = Except.error (Error.invalidChar (s.getD j 0) (i + j)) := by
  intro s
  induction s with
  | nil =>
    intro i acc h
    obtain ⟨b, hb, _⟩ := h
    cases hb
  | cons b rest ih =>
    intro i acc h
    by_cases hb : DECODE_TABLE b = 255
    · refine ⟨0, by simp, by simpa using hb, by omega, ?_⟩
      simp [decode_loop, hb]
    · obtain ⟨b', hb', htab⟩ := h
      rcases List.mem_cons.mp hb' with rfl | hb'
      · exact absurd htab hb
      · obtain ⟨j, hjlen, hjtab, hjfirst, hjeq⟩ := ih (i + 1)
          (((acc <<< 5) % U128) ||| DECODE_TABLE b) ⟨b', hb', htab⟩
        refine ⟨j + 1, by simpa using Nat.succ_lt_succ hjlen, by simpa using hjtab, ?_, ?_⟩
        · intro k hk
          cases k with
          | zero => simpa using hb
          | succ k => simpa using hjfirst k (by omega)
        · have : i + (j + 1) = i + 1 + j := by omega
          rw [this]
          simpa [decode_loop, hb] using hjeq

/-- C6: decoding an input whose length differs from 26 fails with
InvalidLength carrying expected 26 and the found length (concretely, the
bytes of "123" give expected 26, found 3); the bytes of I, L, O, U in either
case are outside the alphabet; and decoding a 26-byte input containing an
invalid byte fails with InvalidCharacter carrying an offending byte and its
position — the earliest invalid position (concretely, the bytes of
"0000000000000000000000000I" report byte 73, the character I, at
position 25). -/
theorem decode_errors :
    (∀ s : List Nat, s.length ≠ 26 →
      decode_u128 s = Except.error (Error.invalidLength 26 s.length)) ∧
    decode_u128 [49, 50, 51] = Except.error (Error.invalidLength 26 3) ∧
    (∀ b ∈ [73, 76, 79, 85, 105, 108, 111, 117], DECODE_TABLE b = 255) ∧
    (∀ s : List Nat, s.length = 26 → (∃ b ∈ s, DECODE_TABLE b = 255) →
      ∃ j, j < 26 ∧ DECODE_TABLE (s.getD j 0) = 255 ∧
        (∀ k < j, DECODE_TABLE (s.getD k 0) ≠ 255) ∧
        decode_u128 s = Except.error (Error.invalidChar (s.getD j 0) j)) ∧
    decode_u128 (List.replicate 25 48 ++ [73]) =
      Except.error (Error.invalidChar 73 25) := by
  refine ⟨?_, by rfl, by decide, ?_, by rfl⟩
  · intro s hs
    rw [decode_u128, if_neg (by simpa [NULID_STRING_LENGTH] using hs)]
    rfl
  · intro s hlen hex
    obtain ⟨j, hjlen, hjtab, hjfirst, hjeq⟩ := decode_loop_first_invalid s 0 0 hex
    rw [hlen] at hjlen
    refine ⟨j, hjlen, hjtab, hjfirst, ?_⟩
    rw [decode_u128, if_pos (by simp [hlen, NULID_STRING_LENGTH]), hjeq]
    simp

/-- Witness for C6: the concrete wrong-length input and a concrete invalid
character found via the universal part. -/
theorem decode_errors_witness :
    decode_u128 [49, 50, 51] = Except.error (Error.invalidLength 26 3) ∧
    (∃ j, j < 26 ∧
      DECODE_TABLE ((List.replicate 25 48 ++ [73]).getD j 0) = 255 ∧
      (∀ k < j, DECODE_TABLE ((List.replicate 25 48 ++ [73]).getD k 0) ≠ 255) ∧
      decode_u128 (List.replicate 25 48 ++ [73]) =
        Except.error (Error.invalidChar ((List.replicate 25 48 ++ [73]).getD j 0) j)) :=
  ⟨decode_errors.1 [49, 50, 51] (by decide),
    decode_errors.2.2.2.1 (List.replicate 25 48 ++ [73]) (by decide) (by decide)⟩

/-! ### The decoder silently discards the two excess bits -/

lemma forall₂_self (s : List Nat) (h : ∀ b ∈ s, DECODE_TABLE b ≠ 255) :
    List.Forall₂ (fun d b => DECODE_TABLE b = d ∧ d < 32) (s.map DECODE_TABLE) s := by
  induction s with
  | nil => exact List.Forall₂.nil
  | cons b s ih =>
    exact List.Forall₂.cons ⟨rfl, DECODE_TABLE_lt b (h b (List.mem_cons_self _ _))⟩
      (ih (fun x hx => h x (List.mem_cons_of_mem _ hx)))

/-- C10: the decoder does not reject 26-character valid-alphabet strings
whose most significant character encodes 8 or more; the 130-bit accumulation
is reduced mod 2^128 by the wrapping left shift, so decoding succeeds and
returns the accumulated value mod 2^128.  Consequently decode is not
injective on valid-alphabet strings ("Z" followed by 25 zeros and "7"
followed by 25 zeros both decode to 7 * 2^125), and re-encoding the decoded
value of the first does not return that (already uppercase) string. -/
theorem decode_discards_high_bits :
    (∀ s : List Nat, s.length = 26 → (∀ b ∈ s, DECODE_TABLE b ≠ 255) →
      decode_u128 s =
        Except.ok ((s.map DECODE_TABLE).foldl (fun a d => a * 32 + d) 0 % U128)) ∧
    decode_u128 (90 :: List.replicate 25 48) = Except.ok (7 * 2 ^ 125) ∧
    decode_u128 (55 :: List.replicate 25 48) = Except.ok (7 * 2 ^ 125) ∧
    (90 :: List.replicate 25 48 : List Nat) ≠ 55 :: List.replicate 25 48 ∧
    encode_u128 (7 * 2 ^ 125) = 55 :: List.replicate 25 48 ∧
    encode_u128 (7 * 2 ^ 125) ≠ 90 :: List.replicate 25 48 := by
  refine ⟨?_, by rfl, by rfl, by decide, by rfl, by decide⟩
  intro s hlen hval
  have hmem : ∀ d ∈ s.map DECODE_TABLE, d < 32 := by
    intro d hd
    obtain ⟨b, hb, rfl⟩ := List.mem_map.mp hd
    exact DECODE_TABLE_lt b (hval b hb)
  rw [decode_u128, if_pos (by simp [hlen, NULID_STRING_LENGTH]),
    decode_loop_ok (forall₂_self s hval) 0 0, wfold_eq_pfold _ _ hmem U128_pos]

/-- Witness for C10: the universal part applied to the Z-headed string. -/
theorem decode_discards_high_bits_witness :
    decode_u128 (90 :: List.replicate 25 48) =
      Except.ok (((90 :: List.replicate 25 48).map DECODE_TABLE).foldl
        (fun a d => a * 32 + d) 0 % U128) :=
  decode_discards_high_bits.1 (90 :: List.replicate 25 48) (by decide) (by decide)

end NulidModel
